import Mathlib

/-!
Verification of the Proteinhub core pipeline (src/kartik.py):
graph construction (`build_network`), hub ranking (`find_hub_genes`) and
scene generation (`create_graph_figure`), over a shallow embedding.

Python values reaching the pipeline are modelled by `JVal` (the JSON-ish
values a decoded STRING-DB record can hold); machine floats are modelled by
exact rationals; `dict.get` on a missing key is modelled as `JVal.null`.
-/

set_option linter.unusedSectionVars false
set_option linter.unusedVariables false

namespace ProteinHub

/-- JSON-ish Python value as it appears in a decoded interaction record
field. `null` stands both for JSON null and for a missing key (Python
`dict.get` returns `None` in both cases). Nested lists/objects are not
modelled; no record field of interest holds one. -/
inductive JVal : Type
  | null : JVal
  | bool (b : Bool) : JVal
  | num (q : ℚ) : JVal
  | str (s : String) : JVal
deriving DecidableEq, Repr

/-- Python truthiness of a `JVal` (`if p1 and p2 ...`): `None` is falsy,
`0` and `0.0` are falsy, the empty string is falsy, `False` is falsy. -/
def truthy : JVal → Bool
  | .null => false
  | .bool b => b
  | .num q => q != 0
  | .str s => s != ""

/-- Digits-to-number helper for `parseFloat?`. -/
def digitsToNat (cs : List Char) : ℕ :=
  cs.foldl (fun a c => 10 * a + (c.toNat - 48)) 0

/-- Strip leading and trailing whitespace from a character list (the
whitespace stripping Python `float` applies to a string argument). -/
def stripChars (cs : List Char) : List Char :=
  ((cs.dropWhile Char.isWhitespace).reverse.dropWhile Char.isWhitespace).reverse

/-- Model of Python `float(s)` on a string: optional surrounding
whitespace, an optional sign, then `digits`, `digits.digits`, `digits.` or
`.digits`. (Exponents, `inf`/`nan` and underscores are not modelled; no
claim depends on them.) `none` models `float` raising `ValueError`. -/
def parseFloat? (s : String) : Option ℚ :=
  let cs := stripChars s.toList
  let sgn : ℚ := match cs with
    | '-' :: _ => -1
    | _ => 1
  let body : List Char := match cs with
    | '-' :: rest => rest
    | '+' :: rest => rest
    | _ => cs
  let intPart := body.takeWhile Char.isDigit
  let rest := body.dropWhile Char.isDigit
  match rest with
  | [] =>
      if intPart.isEmpty then none
      else some (sgn * (digitsToNat intPart : ℚ))
  | '.' :: frac =>
      if frac.all Char.isDigit && !(intPart.isEmpty && frac.isEmpty) then
        some (sgn * ((digitsToNat intPart : ℚ)
          + (digitsToNat frac : ℚ) / (10 ^ frac.length)))
      else none
  | _ => none

/-- Model of Python `float(v)`: numbers convert to themselves, booleans to
`1.0`/`0.0`, strings via `parseFloat?`. `none` models `float` raising
(`ValueError`/`TypeError`). -/
def pyFloat? : JVal → Option ℚ
  | .num q => some q
  | .bool b => some (if b then 1 else 0)
  | .str s => parseFloat? s
  | .null => none

/-- One raw interaction record, reduced to the three fields
`build_network` reads (`interaction.get('preferredName_A')`, `.get('preferredName_B')`,
`.get('score')`); a missing key is `JVal.null`. -/
structure Interaction : Type where
  preferredName_A : JVal
  preferredName_B : JVal
  score : JVal
deriving DecidableEq, Repr

/-- The `data` argument of `build_network`: either a Python list of
records, or any non-list value (`None`, a dict, ...), which the guard
`if not data or not isinstance(data, list)` rejects. -/
inductive NetInput : Type
  | notList : NetInput
  | list (recs : List Interaction) : NetInput

/-- Model of `networkx.DiGraph`: insertion-ordered node list plus an
insertion-ordered successor-adjacency list (one entry per node, holding
its out-neighbours with edge weights, in edge-insertion order). Edge
iteration order of `G.edges()` is recovered from `adj` node-by-node,
exactly as networkx iterates its adjacency dict. -/
structure Graph (α : Type) : Type where
  nodes : List α
  adj : List (α × List (α × ℚ))
deriving DecidableEq, Repr

variable {α : Type} [DecidableEq α] {β : Type}

/-- First-match association lookup (Python dict indexing on our
insertion-ordered association lists, whose keys are kept duplicate-free). -/
def alookup : List (α × β) → α → Option β
  | [], _ => none
  | p :: rest, n => if p.1 = n then some p.2 else alookup rest n

/-- The empty `nx.DiGraph()`. -/
def Graph.empty : Graph α := ⟨[], []⟩

/-- `G.add_node(n)` as performed implicitly by `nx.DiGraph.add_edge`: a
new node is appended to the insertion order with an empty successor list;
an existing node is left untouched. -/
def addNode (G : Graph α) (n : α) : Graph α :=
  if n ∈ G.nodes then G
  else ⟨G.nodes ++ [n], G.adj ++ [(n, [])]⟩

/-- Set key `v` to weight `w` in a successor list: overwrite in place if
the key exists (Python dict update), else append (dict insertion). -/
def setSucc (l : List (α × ℚ)) (v : α) (w : ℚ) : List (α × ℚ) :=
  match l with
  | [] => [(v, w)]
  | q :: rest => if q.1 = v then (v, w) :: rest else q :: setSucc rest v w

/-- `G.add_edge(u, v, weight=w)` on `nx.DiGraph`: insert the endpoints as
nodes if absent (`u` first, then `v`), then set `v ↦ w` in `u`'s successor
dict (overwriting the weight if the ordered edge already exists). -/
def add_edge (G : Graph α) (u v : α) (w : ℚ) : Graph α :=
  let G1 := addNode (addNode G u) v
  ⟨G1.nodes, G1.adj.map (fun p => if p.1 = u then (p.1, setSucc p.2 v w) else p)⟩

/-- `G.number_of_nodes()`. -/
def Graph.number_of_nodes (G : Graph α) : ℕ := G.nodes.length

/-- Flatten an adjacency list into `(source, target, weight)` triples in
networkx edge-iteration order. -/
def edgesAux : List (α × List (α × ℚ)) → List (α × α × ℚ)
  | [] => []
  | p :: rest => p.2.map (fun q => (p.1, q.1, q.2)) ++ edgesAux rest

/-- `G.edges(data='weight')`: all stored directed edges. -/
def Graph.edges (G : Graph α) : List (α × α × ℚ) := edgesAux G.adj

/-- Weight of the stored directed edge `u → v`, if present
(`G[u][v]['weight']`). -/
def lookupW (G : Graph α) (u v : α) : Option ℚ :=
  match alookup G.adj u with
  | none => none
  | some succ => alookup succ v

/-- Out-degree: size of `u`'s successor dict. -/
def Graph.out_degree (G : Graph α) (n : α) : ℕ :=
  ((alookup G.adj n).getD []).length

/-- In-degree accumulator: occurrences of `n` as a target across all
successor lists (networkx reads this off the predecessor dict; the count
is the same). -/
def inDegAux (n : α) : List (α × List (α × ℚ)) → ℕ
  | [] => 0
  | p :: rest => p.2.countP (fun q => decide (q.1 = n)) + inDegAux n rest

/-- In-degree of `n`. -/
def Graph.in_degree (G : Graph α) (n : α) : ℕ := inDegAux n G.adj

/-- `nx.DiGraph.degree(n)` = in-degree + out-degree. -/
def Graph.degree (G : Graph α) (n : α) : ℕ := G.in_degree n + G.out_degree n

/-- Well-formedness invariant of the `nx.DiGraph` model: the adjacency
keys are exactly the nodes in insertion order, nodes are duplicate-free,
each successor list has duplicate-free keys, and every successor is a
node. Every graph built by `build_network` satisfies it. -/
def Graph.WF (G : Graph α) : Prop :=
  G.adj.map Prod.fst = G.nodes ∧ G.nodes.Nodup ∧
  (∀ p ∈ G.adj, (p.2.map Prod.fst).Nodup) ∧
  (∀ p ∈ G.adj, ∀ q ∈ p.2, q.1 ∈ G.nodes)

instance decidableWF (G : Graph α) : Decidable G.WF :=
  decidable_of_iff (G.adj.map Prod.fst = G.nodes ∧ G.nodes.Nodup ∧
    (∀ p ∈ G.adj, (p.2.map Prod.fst).Nodup) ∧
    (∀ p ∈ G.adj, ∀ q ∈ p.2, q.1 ∈ G.nodes)) Iff.rfl

/-- The body of `build_network`'s loop for one record:
`p1 = interaction.get('preferredName_A')`, `p2 = ...B`, `score = interaction.get('score')`;
`if p1 and p2 and score is not None: G.add_edge(p1, p2, weight=float(score))`.
`.error ()` models `float(score)` raising out of `build_network`. -/
def applyRecord (G : Graph JVal) (r : Interaction) : Except Unit (Graph JVal) :=
  if truthy r.preferredName_A && truthy r.preferredName_B
      && !(r.score == JVal.null) then
    match pyFloat? r.score with
    | some w => .ok (add_edge G r.preferredName_A r.preferredName_B w)
    | none => .error ()
  else
    .ok G

/-- The `for interaction in data:` loop; an exception aborts it. -/
def applyRecords (G : Graph JVal) : List Interaction → Except Unit (Graph JVal)
  | [] => .ok G
  | r :: rs =>
    match applyRecord G r with
    | .ok G1 => applyRecords G1 rs
    | .error e => .error e

/-- `build_network(data)`: an empty or non-list input returns the empty
graph; otherwise the records are folded into the graph one by one. -/
def build_network : NetInput → Except Unit (Graph JVal)
  | .notList => .ok Graph.empty
  | .list recs => if recs.isEmpty then .ok Graph.empty
                  else applyRecords Graph.empty recs

/-- A record survives parsing: the guard passes and `float(score)`
succeeds, so the record contributes an edge. -/
def survives (r : Interaction) : Bool :=
  truthy r.preferredName_A && truthy r.preferredName_B
    && !(r.score == JVal.null) && (pyFloat? r.score).isSome

/-- `dict(G.degree())`: `(node, degree)` pairs in node-insertion order. -/
def degree_items (G : Graph α) : List (α × ℕ) :=
  G.nodes.map (fun n => (n, G.degree n))

/-- Stable descending insertion: walk past elements with strictly larger
key, stop before the first element with key ≤ the new key (so an element
is placed after every earlier-inserted element of equal key). -/
def sortedInsert (x : α × ℕ) : List (α × ℕ) → List (α × ℕ)
  | [] => [x]
  | y :: ys => if x.2 < y.2 then y :: sortedInsert x ys else x :: y :: ys

/-- Model of Python `sorted(items, key=lambda x: x[1], reverse=True)`:
a stable sort, descending on the second component. (Python uses Timsort;
any two stable sorts over the same total preorder agree on output, so
stable insertion sort is observationally the same function.) -/
def sortDesc (l : List (α × ℕ)) : List (α × ℕ) :=
  l.foldr sortedInsert []

/-- `find_hub_genes(G, top_n)`: empty for an empty graph, else the node
names of the stable degree-descending sort of `dict(G.degree()).items()`,
truncated to `top_n`. -/
def find_hub_genes (G : Graph α) (top_n : ℕ) : List α :=
  if G.number_of_nodes = 0 then []
  else ((sortDesc (degree_items G)).take top_n).map Prod.fst

/-! ### Layout engine

`create_graph_figure` computes node positions through
`nx.spring_layout(G, seed=42, k=0.5, iterations=50)`, an external library
call whose code is not part of this repository. The layout is therefore
modelled from the spec (§4.4 Layout Engine): a force-directed iterative
relaxation over exact rationals in which every node pair repels inversely
with distance, connected nodes attract proportionally to distance
regardless of stored edge direction, iterated a fixed number of times from
a seeded pseudo-random initial placement. -/

/-- Modelled from the spec: one step of the injected pseudo-random
generator used for the seeded initial placement (a 31-bit linear
congruential generator; the spec requires only that the seed make the
placement deterministic). -/
def lcg (s : ℕ) : ℕ := (1103515245 * s + 12345) % 2147483648

/-- The `i`-th pseudo-random draw from a seed. -/
def randSeq (seed : ℕ) : ℕ → ℕ
  | 0 => lcg seed
  | n + 1 => lcg (randSeq seed n)

/-- Modelled from the spec: seeded pseudo-random initial placement, one
coordinate pair per node in node order, each coordinate in `[0, 1)`. -/
def initPos (nodes : List α) (seed : ℕ) : List (α × (ℚ × ℚ)) :=
  nodes.enum.map (fun p =>
    (p.2, ((randSeq seed (2 * p.1) : ℚ) / 2147483648,
           (randSeq seed (2 * p.1 + 1) : ℚ) / 2147483648)))

/-- Modelled from the spec: net displacement of node `u` at position `pu`.
Each other node contributes repulsion `k² / d²` along the separation
vector (inverse in the distance) and, if connected in either stored
direction, attraction `-(w(u,v) + w(v,u)) / k` along the separation vector
(proportional to the distance, insensitive to edge direction). Coincident
nodes exert no force. -/
def dispOne (k : ℚ) (w : α → α → ℚ) (pos : List (α × (ℚ × ℚ))) (u : α)
    (pu : ℚ × ℚ) : ℚ × ℚ :=
  pos.foldl (fun acc q =>
    if q.1 = u then acc
    else
      let dx := pu.1 - q.2.1
      let dy := pu.2 - q.2.2
      let dsq := dx * dx + dy * dy
      if dsq = 0 then acc
      else
        let coef := k * k / dsq - (w u q.1 + w q.1 u) / k
        (acc.1 + coef * dx, acc.2 + coef * dy)) (0, 0)

/-- Modelled from the spec: one relaxation sweep moving every node along
its net displacement, scaled by a cooling factor `t`. -/
def stepPos (k : ℚ) (w : α → α → ℚ) (t : ℚ)
    (pos : List (α × (ℚ × ℚ))) : List (α × (ℚ × ℚ)) :=
  pos.map (fun p =>
    let d := dispOne k w pos p.1 p.2
    (p.1, (p.2.1 + t * d.1, p.2.2 + t * d.2)))

/-- Modelled from the spec: the fixed number of relaxation sweeps with a
decreasing cooling schedule. -/
def layoutIter (k : ℚ) (w : α → α → ℚ) (pos : List (α × (ℚ × ℚ))) :
    ℕ → List (α × (ℚ × ℚ))
  | 0 => pos
  | n + 1 => stepPos k w (1 / (10 * ((n : ℚ) + 1))) (layoutIter k w pos n)

/-- Modelled from the spec: the layout over a node list and a directed
weight function. -/
def layoutAux (nodes : List α) (w : α → α → ℚ) (seed : ℕ) (k : ℚ)
    (iterations : ℕ) : List (α × (ℚ × ℚ)) :=
  layoutIter k w (initPos nodes seed) iterations

/-- The stored directed weight of `u → v`, 0 when the edge is absent (the
adjacency-matrix entry the layout reads). -/
def adjW (G : Graph α) (u v : α) : ℚ := (lookupW G u v).getD 0

/-- Modelled from the spec: `nx.spring_layout(G, seed=seed, k=k,
iterations=iterations)` — deterministic force-directed layout of `G`'s
nodes, reading the stored directed weights but applying attraction
symmetrically. -/
def spring_layout (G : Graph α) (seed : ℕ) (k : ℚ) (iterations : ℕ) :
    List (α × (ℚ × ℚ)) :=
  layoutAux G.nodes (fun u v => adjW G u v) seed k iterations

/-- The `pos` computed by `create_graph_figure`: the empty mapping for an
empty graph, otherwise `nx.spring_layout(G, seed=42, k=0.5, iterations=50)`. -/
def layoutOf (G : Graph α) : List (α × (ℚ × ℚ)) :=
  if G.number_of_nodes = 0 then []
  else spring_layout G 42 (1 / 2) 50

/-- One rendered node marker of the node trace: position, marker size
(`min(50, 10 + degree * 1.5)`), hub colouring (`crimson` vs
`cornflowerblue`), the text label (`none` models the suppressed empty
label), and the hover data `(node, degree)`. -/
structure Glyph (α : Type) : Type where
  pos : ℚ × ℚ
  size : ℚ
  isHub : Bool
  label : Option α
  hover : α × ℕ
deriving DecidableEq, Repr

/-- Renderer-agnostic scene assembled by `create_graph_figure`: the edge
trace as coordinate segments, the node trace as glyphs. -/
structure Scene (α : Type) : Type where
  edgeSegs : List ((ℚ × ℚ) × (ℚ × ℚ))
  glyphs : List (Glyph α)
deriving DecidableEq, Repr

/-- The edge trace of `create_graph_figure`: one segment per stored edge
whose two endpoints resolve in `pos` (`if src in pos and dst in pos`). -/
def sceneEdgeSegs (G : Graph α) : List ((ℚ × ℚ) × (ℚ × ℚ)) :=
  G.edges.filterMap (fun e =>
    match alookup (layoutOf G) e.1, alookup (layoutOf G) e.2.1 with
    | some c0, some c1 => some (c0, c1)
    | _, _ => none)

/-- The node trace of `create_graph_figure`: one glyph per node that
resolves in `pos` (`if node in pos`), with size
`min(50, 10 + degree * 1.5)`, hub colouring from membership in
`hub_genes`, and the label suppressed unless `degree > 2` or the node is
a hub. -/
def sceneGlyphs (G : Graph α) (hub_genes : List α) : List (Glyph α) :=
  G.nodes.filterMap (fun n =>
    match alookup (layoutOf G) n with
    | some c =>
        some { pos := c,
               size := min 50 (10 + (G.degree n : ℚ) * (3 / 2)),
               isHub := decide (n ∈ hub_genes),
               label := if G.degree n > 2 ∨ n ∈ hub_genes then some n
                        else none,
               hover := (n, G.degree n) }
    | none => none)

/-- The scene part of `create_graph_figure(G, hub_genes)`: the edge trace
and the node trace built over the computed layout. Plotly styling
(colors, fonts, axes) carries no logic and is not modelled. -/
def create_graph_figure (G : Graph α) (hub_genes : List α) : Scene α :=
  ⟨sceneEdgeSegs G, sceneGlyphs G hub_genes⟩

/-- Delete key `v` from a successor list. -/
def delSucc : List (α × ℚ) → α → List (α × ℚ)
  | [], _ => []
  | q :: rest, v => if q.1 = v then delSucc rest v else q :: delSucc rest v

/-- The edge-reversal transformation claim C5 quantifies over: replace the
stored edge `a → b` by `b → a` carrying weight `wt`, leaving the node set
and insertion order untouched. -/
def reverseEdge (G : Graph α) (a b : α) (wt : ℚ) : Graph α :=
  ⟨G.nodes,
   (G.adj.map (fun p => if p.1 = a then (p.1, delSucc p.2 b) else p)).map
     (fun p => if p.1 = b then (p.1, setSucc p.2 a wt) else p)⟩

/-- Ordered endpoint pairs of the stored edges, in edge-iteration order
(the identity of an edge for the dedup invariant). -/
def edgeKeys (G : Graph α) : List (α × α) :=
  G.edges.map (fun e => (e.1, e.2.1))

/-- All identifiers appearing as source or target across the records that
survive parsing (with multiplicity, in record order). -/
def endpointsOf (recs : List Interaction) : List JVal :=
  (recs.filter (fun r => survives r)).foldr
    (fun r acc => r.preferredName_A :: r.preferredName_B :: acc) []

/-- The graph of the worked example in the spec, built from the triples
`[(A,B,0.9), (B,C,0.5), (A,C,0.3)]`. -/
def exampleGraph : Graph JVal :=
  add_edge
    (add_edge
      (add_edge Graph.empty (JVal.str "A") (JVal.str "B") (9 / 10))
      (JVal.str "B") (JVal.str "C") (1 / 2))
    (JVal.str "A") (JVal.str "C") (3 / 10)

/-! ### Association-list lemmas -/

theorem alookup_cons (p : α × β) (l : List (α × β)) (n : α) :
    alookup (p :: l) n = if p.1 = n then some p.2 else alookup l n := rfl

theorem alookup_eq_none {l : List (α × β)} {n : α} :
    alookup l n = none ↔ n ∉ l.map Prod.fst := by
  induction l with
  | nil => simp [alookup]
  | cons p rest ih =>
    by_cases h : p.1 = n
    · simp [alookup_cons, h]
    · simp [alookup_cons, h, ih, Ne.symm h]

theorem alookup_isSome {l : List (α × β)} {n : α} :
    (alookup l n).isSome = true ↔ n ∈ l.map Prod.fst := by
  induction l with
  | nil => simp [alookup]
  | cons p rest ih =>
    by_cases h : p.1 = n
    · simp [alookup_cons, h]
    · simp [alookup_cons, h, ih, Ne.symm h]

theorem alookup_append (l₁ l₂ : List (α × β)) (n : α) :
    alookup (l₁ ++ l₂) n =
      match alookup l₁ n with
      | some b => some b
      | none => alookup l₂ n := by
  induction l₁ with
  | nil => rfl
  | cons p rest ih =>
    by_cases h : p.1 = n <;> simp [alookup_cons, h, ih]

theorem mem_of_alookup {l : List (α × β)} {n : α} {b : β}
    (h : alookup l n = some b) : (n, b) ∈ l := by
  induction l with
  | nil => simp [alookup] at h
  | cons p rest ih =>
    rw [alookup_cons] at h
    by_cases hp : p.1 = n
    · rw [if_pos hp] at h
      have hnb : (n, b) = p := by
        cases p
        simp only [Option.some.injEq] at h
        simp_all
      rw [hnb]
      exact List.mem_cons_self _ _
    · rw [if_neg hp] at h
      exact List.mem_cons_of_mem _ (ih h)

theorem alookup_map_keyfix (h : α × β → α × β) (hk : ∀ p, (h p).1 = p.1)
    (l : List (α × β)) (x : α) :
    alookup (l.map h) x = (alookup l x).map (fun s => (h (x, s)).2) := by
  induction l with
  | nil => rfl
  | cons p rest ih =>
    simp only [List.map_cons, alookup_cons, hk]
    by_cases hx : p.1 = x
    · rw [if_pos hx, if_pos hx]
      have hp : h p = h (x, p.2) := by
        cases p; simp_all
      rw [hp]
      rfl
    · rw [if_neg hx, if_neg hx, ih]

omit [DecidableEq α] in
theorem map_fst_map_keyfix (h : α × β → α × β) (hk : ∀ p, (h p).1 = p.1)
    (l : List (α × β)) : (l.map h).map Prod.fst = l.map Prod.fst := by
  induction l with
  | nil => rfl
  | cons p rest ih => simp [hk, ih]

/-! ### `setSucc` and `delSucc` lemmas -/

theorem setSucc_map_fst (l : List (α × ℚ)) (v : α) (w : ℚ) :
    (setSucc l v w).map Prod.fst =
      if v ∈ l.map Prod.fst then l.map Prod.fst
      else l.map Prod.fst ++ [v] := by
  induction l with
  | nil => simp [setSucc]
  | cons q rest ih =>
    by_cases h : q.1 = v
    · simp [setSucc, h]
    · have h' : ¬v = q.1 := fun hv => h hv.symm
      by_cases hm : v ∈ rest.map Prod.fst <;>
        simp [setSucc, h, ih, h', hm]

theorem mem_setSucc {l : List (α × ℚ)} {v : α} {w : ℚ} {q : α × ℚ}
    (h : q ∈ setSucc l v w) : q ∈ l ∨ q = (v, w) := by
  induction l with
  | nil => simp [setSucc] at h; right; exact h
  | cons p rest ih =>
    by_cases hp : p.1 = v
    · rw [setSucc, if_pos hp, List.mem_cons] at h
      rcases h with h | h
      · right; exact h
      · left; exact List.mem_cons_of_mem _ h
    · rw [setSucc, if_neg hp, List.mem_cons] at h
      rcases h with h | h
      · left; exact h ▸ List.mem_cons_self _ _
      · rcases ih h with h' | h'
        · left; exact List.mem_cons_of_mem _ h'
        · right; exact h'

theorem alookup_setSucc_self (l : List (α × ℚ)) (v : α) (w : ℚ) :
    alookup (setSucc l v w) v = some w := by
  induction l with
  | nil => simp [setSucc, alookup_cons]
  | cons q rest ih =>
    by_cases h : q.1 = v
    · simp [setSucc, h, alookup_cons]
    · simp [setSucc, h, alookup_cons, ih]

theorem alookup_setSucc_ne (l : List (α × ℚ)) (v : α) (w : ℚ) {x : α}
    (hx : x ≠ v) : alookup (setSucc l v w) x = alookup l x := by
  induction l with
  | nil =>
    have hvx : ¬v = x := fun hv => hx hv.symm
    rw [setSucc, alookup_cons, if_neg hvx]
  | cons q rest ih =>
    by_cases h : q.1 = v
    · rw [setSucc, if_pos h, alookup_cons, alookup_cons, h,
        if_neg (fun hvx => hx hvx.symm), if_neg (fun hvx => hx hvx.symm)]
    · rw [setSucc, if_neg h, alookup_cons, alookup_cons, ih]

theorem alookup_delSucc_self (l : List (α × ℚ)) (b : α) :
    alookup (delSucc l b) b = none := by
  induction l with
  | nil => rfl
  | cons q rest ih =>
    by_cases h : q.1 = b
    · rw [delSucc, if_pos h]
      exact ih
    · rw [delSucc, if_neg h, alookup_cons, if_neg h]
      exact ih

theorem alookup_delSucc_ne (l : List (α × ℚ)) (b : α) {y : α} (hy : y ≠ b) :
    alookup (delSucc l b) y = alookup l y := by
  induction l with
  | nil => rfl
  | cons q rest ih =>
    by_cases h : q.1 = b
    · have hqy : ¬q.1 = y := fun hq => hy (h ▸ hq.symm ▸ rfl)
      rw [delSucc, if_pos h, alookup_cons, if_neg hqy]
      exact ih
    · rw [delSucc, if_neg h, alookup_cons, alookup_cons, ih]

/-! ### Graph construction invariants -/

theorem empty_WF : (Graph.empty : Graph α).WF := by
  refine ⟨rfl, List.nodup_nil, ?_, ?_⟩ <;> intro p hp <;> simp [Graph.empty] at hp

theorem addNode_nodes (G : Graph α) (n : α) :
    (addNode G n).nodes = if n ∈ G.nodes then G.nodes else G.nodes ++ [n] := by
  by_cases h : n ∈ G.nodes <;> simp [addNode, h]

theorem mem_addNode_nodes {G : Graph α} {n x : α} :
    x ∈ (addNode G n).nodes ↔ x ∈ G.nodes ∨ x = n := by
  rw [addNode_nodes]
  by_cases h : n ∈ G.nodes
  · rw [if_pos h]
    constructor
    · exact Or.inl
    · rintro (hx | rfl)
      · exact hx
      · exact h
  · rw [if_neg h]
    simp

theorem addNode_WF {G : Graph α} (h : G.WF) (n : α) : (addNode G n).WF := by
  obtain ⟨hkeys, hnd, hsucc, hmem⟩ := h
  by_cases hn : n ∈ G.nodes
  · rw [addNode, if_pos hn]
    exact ⟨hkeys, hnd, hsucc, hmem⟩
  · rw [addNode, if_neg hn]
    refine ⟨?_, ?_, ?_, ?_⟩
    · simp [hkeys]
    · simp [List.nodup_append, hnd, hn]
    · intro p hp
      rcases List.mem_append.mp hp with hp | hp
      · exact hsucc p hp
      · simp at hp
        subst hp
        exact List.nodup_nil
    · intro p hp q hq
      rcases List.mem_append.mp hp with hp | hp
      · exact List.mem_append_left _ (hmem p hp q hq)
      · simp at hp
        subst hp
        simp at hq

theorem add_edge_nodes_mem {G : Graph α} {u v w x} :
    x ∈ (add_edge G u v w).nodes ↔ x ∈ G.nodes ∨ x = u ∨ x = v := by
  show x ∈ ((addNode (addNode G u) v).nodes) ↔ _
  rw [mem_addNode_nodes, mem_addNode_nodes]
  tauto

theorem add_edge_nodes_sub {G : Graph α} {u v w} :
    ∀ x ∈ G.nodes, x ∈ (add_edge G u v w).nodes :=
  fun x hx => add_edge_nodes_mem.mpr (Or.inl hx)

theorem add_edge_WF {G : Graph α} (h : G.WF) (u v : α) (w : ℚ) :
    (add_edge G u v w).WF := by
  have h1 : (addNode (addNode G u) v).WF := addNode_WF (addNode_WF h u) v
  set G1 := addNode (addNode G u) v with hG1
  obtain ⟨hkeys, hnd, hsucc, hmem⟩ := h1
  have hfix : ∀ p : α × List (α × ℚ),
      ((fun p => if p.1 = u then (p.1, setSucc p.2 v w) else p) p).1 = p.1 := by
    intro p
    by_cases hp : p.1 = u <;> simp [hp]
  refine ⟨?_, ?_, ?_, ?_⟩
  · show (G1.adj.map _).map Prod.fst = G1.nodes
    rw [map_fst_map_keyfix _ hfix]
    exact hkeys
  · exact hnd
  · intro p hp
    rcases List.mem_map.mp hp with ⟨p0, hp0, hpeq⟩
    by_cases hpu : p0.1 = u
    · rw [if_pos hpu] at hpeq
      subst hpeq
      have hnd0 := hsucc p0 hp0
      show ((setSucc p0.2 v w).map Prod.fst).Nodup
      rw [setSucc_map_fst]
      by_cases hv : v ∈ p0.2.map Prod.fst
      · rw [if_pos hv]; exact hnd0
      · rw [if_neg hv]
        simp [List.nodup_append, hnd0, hv]
    · rw [if_neg hpu] at hpeq
      subst hpeq
      exact hsucc p0 hp0
  · intro p hp q hq
    rcases List.mem_map.mp hp with ⟨p0, hp0, hpeq⟩
    by_cases hpu : p0.1 = u
    · rw [if_pos hpu] at hpeq
      subst hpeq
      rcases mem_setSucc hq with hq | hq
      · exact hmem p0 hp0 q hq
      · subst hq
        show v ∈ G1.nodes
        rw [hG1, mem_addNode_nodes]
        exact Or.inr rfl
    · rw [if_neg hpu] at hpeq
      subst hpeq
      exact hmem p0 hp0 q hq

theorem lookupW_eq_bind (G : Graph α) (u v : α) :
    lookupW G u v = (alookup G.adj u).bind (fun succ => alookup succ v) := by
  rw [lookupW]
  cases alookup G.adj u <;> rfl

theorem add_edge_adj (G : Graph α) (u v : α) (w : ℚ) :
    (add_edge G u v w).adj = (addNode (addNode G u) v).adj.map
      (fun p => if p.1 = u then (p.1, setSucc p.2 v w) else p) := rfl

theorem lookupW_add_edge_self {G : Graph α} (h : G.WF) (u v : α) (w : ℚ) :
    lookupW (add_edge G u v w) u v = some w := by
  have h1 : (addNode (addNode G u) v).WF := addNode_WF (addNode_WF h u) v
  have hu : u ∈ (addNode (addNode G u) v).nodes := by
    rw [mem_addNode_nodes, mem_addNode_nodes]
    tauto
  have husome : (alookup (addNode (addNode G u) v).adj u).isSome = true := by
    rw [alookup_isSome, h1.1]
    exact hu
  obtain ⟨succ, hsucc⟩ := Option.isSome_iff_exists.mp husome
  have hfix : ∀ p : α × List (α × ℚ),
      ((fun p => if p.1 = u then (p.1, setSucc p.2 v w) else p) p).1 = p.1 := by
    intro p
    by_cases hp : p.1 = u <;> simp [hp]
  rw [lookupW_eq_bind, add_edge_adj, alookup_map_keyfix _ hfix, hsucc]
  simp [alookup_setSucc_self]

/-! ### `build_network` loop invariants -/

theorem applyRecord_ok {G G1 : Graph JVal} {r : Interaction}
    (h : applyRecord G r = .ok G1) :
    (survives r = true ∧ ∃ w, pyFloat? r.score = some w ∧
      G1 = add_edge G r.preferredName_A r.preferredName_B w) ∨
    (survives r = false ∧ G1 = G) := by
  rw [applyRecord] at h
  by_cases hc : (truthy r.preferredName_A && truthy r.preferredName_B
      && !(r.score == JVal.null)) = true
  · rw [if_pos hc] at h
    cases hw : pyFloat? r.score with
    | none => rw [hw] at h; exact absurd h (by simp)
    | some w =>
      rw [hw] at h
      simp only [Except.ok.injEq] at h
      left
      refine ⟨?_, w, rfl, h.symm⟩
      rw [survives, hc, hw]
      rfl
  · rw [if_neg hc] at h
    simp only [Except.ok.injEq] at h
    right
    refine ⟨?_, h.symm⟩
    have hfalse : (truthy r.preferredName_A && truthy r.preferredName_B
        && !(r.score == JVal.null)) = false := by
      cases hb : (truthy r.preferredName_A && truthy r.preferredName_B
          && !(r.score == JVal.null)) with
      | true => exact absurd hb hc
      | false => rfl
    rw [survives, hfalse]
    rfl

theorem applyRecord_survives_ok {G : Graph JVal} {r : Interaction}
    (h : survives r = true) :
    applyRecord G r =
      .ok (add_edge G r.preferredName_A r.preferredName_B
        ((pyFloat? r.score).getD 0)) := by
  rw [survives] at h
  rcases Bool.and_eq_true_iff.mp h with ⟨hc, hsome⟩
  obtain ⟨w, hw⟩ := Option.isSome_iff_exists.mp hsome
  rw [applyRecord, if_pos hc, hw]
  simp [hw]

theorem applyRecord_discard {G : Graph JVal} {r : Interaction}
    (h : (truthy r.preferredName_A && truthy r.preferredName_B
      && !(r.score == JVal.null)) = false) :
    applyRecord G r = .ok G := by
  rw [applyRecord, if_neg (by simp [h])]

theorem applyRecords_ok_WF {rs : List Interaction} :
    ∀ {G G' : Graph JVal}, G.WF → applyRecords G rs = .ok G' → G'.WF := by
  induction rs with
  | nil =>
    intro G G' hwf h
    rw [applyRecords] at h
    simp only [Except.ok.injEq] at h
    exact h ▸ hwf
  | cons r rs ih =>
    intro G G' hwf h
    rw [applyRecords] at h
    cases h1 : applyRecord G r with
    | error e => rw [h1] at h; exact absurd h (by simp)
    | ok G1 =>
      rw [h1] at h
      rcases applyRecord_ok h1 with ⟨_, w, _, hG1⟩ | ⟨_, hG1⟩
      · exact ih (hG1 ▸ add_edge_WF hwf _ _ w) h
      · exact ih (hG1 ▸ hwf) h

theorem applyRecords_mem_nodes {rs : List Interaction} :
    ∀ {G G' : Graph JVal}, applyRecords G rs = .ok G' →
    ∀ x, x ∈ G'.nodes ↔ x ∈ G.nodes ∨ ∃ r ∈ rs, survives r = true ∧
      (r.preferredName_A = x ∨ r.preferredName_B = x) := by
  induction rs with
  | nil =>
    intro G G' h x
    rw [applyRecords] at h
    simp only [Except.ok.injEq] at h
    subst h
    simp
  | cons r rs ih =>
    intro G G' h x
    rw [applyRecords] at h
    cases h1 : applyRecord G r with
    | error e => rw [h1] at h; exact absurd h (by simp)
    | ok G1 =>
      rw [h1] at h
      rcases applyRecord_ok h1 with ⟨hs, w, hw, hG1⟩ | ⟨hs, hG1⟩
      · rw [ih h x, hG1, add_edge_nodes_mem]
        constructor
        · rintro ((hx | hx | hx) | ⟨r', hr', hs', hx⟩)
          · exact Or.inl hx
          · exact Or.inr ⟨r, List.mem_cons_self _ _, hs, Or.inl hx.symm⟩
          · exact Or.inr ⟨r, List.mem_cons_self _ _, hs, Or.inr hx.symm⟩
          · exact Or.inr ⟨r', List.mem_cons_of_mem _ hr', hs', hx⟩
        · rintro (hx | ⟨r', hr', hs', hx⟩)
          · exact Or.inl (Or.inl hx)
          · rcases List.mem_cons.mp hr' with rfl | hr'
            · rcases hx with hx | hx
              · exact Or.inl (Or.inr (Or.inl hx.symm))
              · exact Or.inl (Or.inr (Or.inr hx.symm))
            · exact Or.inr ⟨r', hr', hs', hx⟩
      · rw [ih h x, hG1]
        constructor
        · rintro (hx | ⟨r', hr', hs', hx⟩)
          · exact Or.inl hx
          · exact Or.inr ⟨r', List.mem_cons_of_mem _ hr', hs', hx⟩
        · rintro (hx | ⟨r', hr', hs', hx⟩)
          · exact Or.inl hx
          · rcases List.mem_cons.mp hr' with rfl | hr'
            · rw [hs] at hs'
              exact absurd hs' (by simp)
            · exact Or.inr ⟨r', hr', hs', hx⟩

theorem applyRecords_truthy_nodes {rs : List Interaction} :
    ∀ {G G' : Graph JVal}, (∀ v ∈ G.nodes, truthy v = true) →
    applyRecords G rs = .ok G' → ∀ v ∈ G'.nodes, truthy v = true := by
  induction rs with
  | nil =>
    intro G G' hG h
    rw [applyRecords] at h
    simp only [Except.ok.injEq] at h
    exact h ▸ hG
  | cons r rs ih =>
    intro G G' hG h
    rw [applyRecords] at h
    cases h1 : applyRecord G r with
    | error e => rw [h1] at h; exact absurd h (by simp)
    | ok G1 =>
      rw [h1] at h
      rcases applyRecord_ok h1 with ⟨hs, w, hw, hG1⟩ | ⟨hs, hG1⟩
      · refine ih ?_ h
        intro v hv
        rw [hG1, add_edge_nodes_mem] at hv
        rcases hv with hv | rfl | rfl
        · exact hG v hv
        · rw [survives] at hs
          rcases Bool.and_eq_true_iff.mp hs with ⟨hc, _⟩
          rcases Bool.and_eq_true_iff.mp hc with ⟨hc', _⟩
          exact (Bool.and_eq_true_iff.mp hc').1
        · rw [survives] at hs
          rcases Bool.and_eq_true_iff.mp hs with ⟨hc, _⟩
          rcases Bool.and_eq_true_iff.mp hc with ⟨hc', _⟩
          exact (Bool.and_eq_true_iff.mp hc').2
      · exact ih (hG1 ▸ hG) h

theorem build_network_ok_WF {input : NetInput} {G : Graph JVal}
    (h : build_network input = .ok G) : G.WF := by
  cases input with
  | notList =>
    rw [build_network] at h
    simp only [Except.ok.injEq] at h
    exact h ▸ empty_WF
  | list recs =>
    rw [build_network] at h
    by_cases he : recs.isEmpty
    · rw [if_pos he] at h
      simp only [Except.ok.injEq] at h
      exact h ▸ empty_WF
    · rw [if_neg he] at h
      exact applyRecords_ok_WF empty_WF h

/-! ### Degree and edge-count lemmas -/

theorem countP_src_edgesAux_zero {l : List (α × List (α × ℚ))} {n : α}
    (h : ∀ p ∈ l, p.1 ≠ n) :
    (edgesAux l).countP (fun e => decide (e.1 = n)) = 0 := by
  induction l with
  | nil => rfl
  | cons p rest ih =>
    rw [edgesAux, List.countP_append, List.countP_map]
    have hp : p.1 ≠ n := h p (List.mem_cons_self _ _)
    have h0 : (p.2.countP ((fun e : α × α × ℚ => decide (e.1 = n)) ∘
        (fun q => (p.1, q.1, q.2)))) = 0 := by
      rw [List.countP_eq_zero]
      intro q hq
      simp [hp]
    rw [h0, ih (fun p' hp' => h p' (List.mem_cons_of_mem _ hp'))]

theorem countP_src_edgesAux {l : List (α × List (α × ℚ))} {n : α}
    (hnd : (l.map Prod.fst).Nodup) :
    (edgesAux l).countP (fun e => decide (e.1 = n)) =
      ((alookup l n).getD []).length := by
  induction l with
  | nil => rfl
  | cons p rest ih =>
    rw [List.map_cons, List.nodup_cons] at hnd
    rw [edgesAux, List.countP_append, List.countP_map, alookup_cons]
    by_cases hp : p.1 = n
    · rw [if_pos hp]
      have hrest : (edgesAux rest).countP (fun e => decide (e.1 = n)) = 0 := by
        refine countP_src_edgesAux_zero ?_
        intro p' hp' hpn
        exact hnd.1 (hp ▸ hpn ▸ List.mem_map_of_mem Prod.fst hp')
      have hhead : (p.2.countP ((fun e : α × α × ℚ => decide (e.1 = n)) ∘
          (fun q => (p.1, q.1, q.2)))) = p.2.length := by
        rw [List.countP_eq_length]
        intro q hq
        simp [hp]
      rw [hhead, hrest, Option.getD_some, Nat.add_zero]
    · rw [if_neg hp]
      have hhead : (p.2.countP ((fun e : α × α × ℚ => decide (e.1 = n)) ∘
          (fun q => (p.1, q.1, q.2)))) = 0 := by
        rw [List.countP_eq_zero]
        intro q hq
        simp [hp]
      rw [hhead, ih hnd.2, Nat.zero_add]

theorem countP_tgt_edgesAux (l : List (α × List (α × ℚ))) (n : α) :
    (edgesAux l).countP (fun e => decide (e.2.1 = n)) = inDegAux n l := by
  induction l with
  | nil => rfl
  | cons p rest ih =>
    rw [edgesAux, List.countP_append, List.countP_map, inDegAux, ih]
    have heq : ((fun e : α × α × ℚ => decide (e.2.1 = n)) ∘
        (fun q : α × ℚ => (p.1, q.1, q.2))) =
        (fun q : α × ℚ => decide (q.1 = n)) := rfl
    rw [heq]

theorem mem_edgesAux_src {l : List (α × List (α × ℚ))} {e : α × α × ℚ}
    (h : e ∈ edgesAux l) : e.1 ∈ l.map Prod.fst := by
  induction l with
  | nil => simp [edgesAux] at h
  | cons p rest ih =>
    rw [edgesAux, List.mem_append] at h
    rcases h with h | h
    · rcases List.mem_map.mp h with ⟨q, _, hq⟩
      subst hq
      exact List.mem_cons_self _ _
    · exact List.mem_cons_of_mem _ (ih h)

theorem edgeKeys_nodup_aux {l : List (α × List (α × ℚ))}
    (hsucc : ∀ p ∈ l, (p.2.map Prod.fst).Nodup)
    (hndk : (l.map Prod.fst).Nodup) :
    ((edgesAux l).map (fun e => (e.1, e.2.1))).Nodup := by
  induction l with
  | nil => exact List.nodup_nil
  | cons p rest ih =>
    rw [List.map_cons, List.nodup_cons] at hndk
    rw [edgesAux, List.map_append, List.nodup_append]
    refine ⟨?_, ?_, ?_⟩
    · rw [List.map_map]
      have heq : ((fun e : α × α × ℚ => (e.1, e.2.1)) ∘
          (fun q : α × ℚ => (p.1, q.1, q.2))) =
          (fun k => (p.1, k)) ∘ Prod.fst := rfl
      rw [heq, ← List.map_map]
      refine List.Nodup.map ?_ (hsucc p (List.mem_cons_self _ _))
      intro a b hab
      simpa using hab
    · exact ih (fun p' hp' => hsucc p' (List.mem_cons_of_mem _ hp')) hndk.2
    · intro a ha hb
      rcases List.mem_map.mp ha with ⟨e, he, hea⟩
      rcases List.mem_map.mp he with ⟨q, hq, heq⟩
      rcases List.mem_map.mp hb with ⟨e', he', hea'⟩
      have h1 : a.1 = p.1 := by rw [← hea, ← heq]
      have h2 : a.1 ∈ rest.map Prod.fst := by
        rw [← hea']
        exact mem_edgesAux_src he'
      exact hndk.1 (h1 ▸ h2)

theorem edgeKeys_nodup {G : Graph α} (hwf : G.WF) : (edgeKeys G).Nodup := by
  obtain ⟨hkeys, hnd, hsucc, _⟩ := hwf
  rw [edgeKeys, Graph.edges]
  exact edgeKeys_nodup_aux hsucc (hkeys ▸ hnd)

theorem mem_edgeKeys_aux {l : List (α × List (α × ℚ))} {u v : α}
    (hndk : (l.map Prod.fst).Nodup) :
    (u, v) ∈ (edgesAux l).map (fun e => (e.1, e.2.1)) ↔
      ((alookup l u).bind (fun succ => alookup succ v)).isSome = true := by
  induction l with
  | nil => simp [edgesAux, alookup]
  | cons p rest ih =>
    rw [List.map_cons, List.nodup_cons] at hndk
    rw [edgesAux, List.map_append, List.mem_append, alookup_cons]
    by_cases hp : p.1 = u
    · rw [if_pos hp]
      constructor
      · rintro (h | h)
        · rcases List.mem_map.mp h with ⟨e, he, hee⟩
          rcases List.mem_map.mp he with ⟨q, hq, heq⟩
          subst heq
          simp only [Prod.mk.injEq] at hee
          rw [Option.some_bind]
          rw [alookup_isSome]
          rw [← hee.2]
          exact List.mem_map_of_mem Prod.fst hq
        · exfalso
          rcases List.mem_map.mp h with ⟨e, he, hee⟩
          simp only [Prod.mk.injEq] at hee
          exact hndk.1 (hp ▸ hee.1 ▸ mem_edgesAux_src he)
      · intro h
        rw [Option.some_bind, alookup_isSome] at h
        rcases List.mem_map.mp h with ⟨q, hq, hqv⟩
        left
        refine List.mem_map.mpr ⟨(p.1, q.1, q.2), ?_, by rw [hp, hqv]⟩
        exact List.mem_map.mpr ⟨q, hq, rfl⟩
    · rw [if_neg hp]
      constructor
      · rintro (h | h)
        · exfalso
          rcases List.mem_map.mp h with ⟨e, he, hee⟩
          rcases List.mem_map.mp he with ⟨q, hq, heq⟩
          subst heq
          simp only [Prod.mk.injEq] at hee
          exact hp hee.1
        · exact (ih hndk.2).mp h
      · intro h
        right
        exact (ih hndk.2).mpr h

theorem mem_edgeKeys_iff {G : Graph α} (hwf : G.WF) {u v : α} :
    (u, v) ∈ edgeKeys G ↔ (lookupW G u v).isSome = true := by
  obtain ⟨hkeys, hnd, _, _⟩ := hwf
  rw [edgeKeys, Graph.edges, lookupW_eq_bind]
  exact mem_edgeKeys_aux (hkeys ▸ hnd)

theorem mem_edgesAux_iff {l : List (α × List (α × ℚ))} {e : α × α × ℚ} :
    e ∈ edgesAux l ↔ ∃ p ∈ l, ∃ q ∈ p.2, e = (p.1, q.1, q.2) := by
  induction l with
  | nil => simp [edgesAux]
  | cons p rest ih =>
    rw [edgesAux, List.mem_append, ih]
    constructor
    · rintro (h | ⟨p', hp', q, hq, rfl⟩)
      · rcases List.mem_map.mp h with ⟨q, hq, rfl⟩
        exact ⟨p, List.mem_cons_self _ _, q, hq, rfl⟩
      · exact ⟨p', List.mem_cons_of_mem _ hp', q, hq, rfl⟩
    · rintro ⟨p', hp', q, hq, rfl⟩
      rcases List.mem_cons.mp hp' with rfl | hp'
      · exact Or.inl (List.mem_map_of_mem _ hq)
      · exact Or.inr ⟨p', hp', q, hq, rfl⟩

theorem endpointsOf_cons (r : Interaction) (rs : List Interaction) :
    endpointsOf (r :: rs) =
      if survives r = true
      then r.preferredName_A :: r.preferredName_B :: endpointsOf rs
      else endpointsOf rs := by
  rw [endpointsOf, endpointsOf, List.filter_cons]
  by_cases h : survives r <;> simp [h]

theorem mem_endpointsOf {rs : List Interaction} {v : JVal} :
    v ∈ endpointsOf rs ↔ ∃ r ∈ rs, survives r = true ∧
      (r.preferredName_A = v ∨ r.preferredName_B = v) := by
  induction rs with
  | nil => simp [endpointsOf]
  | cons r rs ih =>
    rw [endpointsOf_cons]
    by_cases h : survives r = true
    · rw [if_pos h]
      simp only [List.mem_cons, ih]
      constructor
      · rintro (rfl | rfl | ⟨r', hr', hs', hv⟩)
        · exact ⟨r, Or.inl rfl, h, Or.inl rfl⟩
        · exact ⟨r, Or.inl rfl, h, Or.inr rfl⟩
        · exact ⟨r', Or.inr hr', hs', hv⟩
      · rintro ⟨r', hr'or, hs', hv⟩
        rcases hr'or with rfl | hr'
        · rcases hv with rfl | rfl
          · exact Or.inl rfl
          · exact Or.inr (Or.inl rfl)
        · exact Or.inr (Or.inr ⟨r', hr', hs', hv⟩)
    · rw [if_neg h]
      rw [ih]
      constructor
      · rintro ⟨r', hr', hs', hv⟩
        exact ⟨r', List.mem_cons_of_mem _ hr', hs', hv⟩
      · rintro ⟨r', hr', hs', hv⟩
        rcases List.mem_cons.mp hr' with rfl | hr'
        · exact absurd hs' h
        · exact ⟨r', hr', hs', hv⟩

theorem countP_eq_one_of_nodup_mem {γ : Type} [DecidableEq γ]
    {l : List γ} {a : γ} (hnd : l.Nodup) (hmem : a ∈ l) :
    l.countP (fun x => decide (x = a)) = 1 := by
  induction l with
  | nil => simp at hmem
  | cons x xs ih =>
    rw [List.nodup_cons] at hnd
    rw [List.countP_cons]
    rcases List.mem_cons.mp hmem with rfl | hmem
    · have h0 : xs.countP (fun y => decide (y = a)) = 0 := by
        rw [List.countP_eq_zero]
        intro y hy
        simp only [decide_eq_true_eq]
        rintro rfl
        exact hnd.1 hy
      simp [h0]
    · have hxa : ¬x = a := fun h => hnd.1 (h ▸ hmem)
      rw [ih hnd.2 hmem]
      simp [hxa]

theorem create_graph_figure_edgeSegs (G : Graph α) (hub_genes : List α) :
    (create_graph_figure G hub_genes).edgeSegs = sceneEdgeSegs G := rfl

theorem create_graph_figure_glyphs (G : Graph α) (hub_genes : List α) :
    (create_graph_figure G hub_genes).glyphs = sceneGlyphs G hub_genes :=
  rfl

/-! ### Stable sort lemmas -/

theorem sortedInsert_perm (x : α × ℕ) (l : List (α × ℕ)) :
    (sortedInsert x l).Perm (x :: l) := by
  induction l with
  | nil => exact List.Perm.refl _
  | cons y ys ih =>
    by_cases h : x.2 < y.2
    · rw [sortedInsert, if_pos h]
      exact (ih.cons y).trans (List.Perm.swap x y ys)
    · rw [sortedInsert, if_neg h]

theorem sortDesc_perm (l : List (α × ℕ)) : (sortDesc l).Perm l := by
  induction l with
  | nil => exact List.Perm.refl _
  | cons x xs ih =>
    rw [sortDesc, List.foldr_cons]
    exact (sortedInsert_perm x (sortDesc xs)).trans (ih.cons x)

theorem mem_sortedInsert {x z : α × ℕ} {l : List (α × ℕ)}
    (h : z ∈ sortedInsert x l) : z = x ∨ z ∈ l :=
  List.mem_cons.mp ((sortedInsert_perm x l).subset h)

theorem sortedInsert_pairwise (R : (α × ℕ) → (α × ℕ) → Prop)
    (hR : ∀ a b, R a b → b.2 ≤ a.2) (x : α × ℕ) :
    ∀ l : List (α × ℕ), l.Pairwise R →
    (∀ z ∈ l, z.2 ≤ x.2 → R x z) → (∀ z ∈ l, x.2 < z.2 → R z x) →
    (sortedInsert x l).Pairwise R := by
  intro l
  induction l with
  | nil =>
    intro _ _ _
    exact List.pairwise_singleton R x
  | cons y ys ih =>
    intro hpw hxz hzx
    rw [List.pairwise_cons] at hpw
    by_cases h : x.2 < y.2
    · rw [sortedInsert, if_pos h]
      rw [List.pairwise_cons]
      constructor
      · intro z hz
        rcases mem_sortedInsert hz with rfl | hz
        · exact hzx y (List.mem_cons_self _ _) h
        · exact hpw.1 z hz
      · exact ih hpw.2
          (fun z hz => hxz z (List.mem_cons_of_mem _ hz))
          (fun z hz => hzx z (List.mem_cons_of_mem _ hz))
    · rw [sortedInsert, if_neg h]
      rw [List.pairwise_cons]
      constructor
      · intro z hz
        rcases List.mem_cons.mp hz with rfl | hz
        · exact hxz z (List.mem_cons_self _ _) (Nat.le_of_not_lt h)
        · refine hxz z (List.mem_cons_of_mem _ hz) ?_
          exact Nat.le_trans (hR y z (hpw.1 z hz)) (Nat.le_of_not_lt h)
      · rw [List.pairwise_cons]
        exact hpw

theorem sortDesc_pairwise (l : List (α × ℕ)) :
    (sortDesc l).Pairwise (fun a b =>
      b.2 < a.2 ∨ (a.2 = b.2 ∧ [a, b].Sublist l)) := by
  induction l with
  | nil => exact List.Pairwise.nil
  | cons x xs ih =>
    rw [sortDesc, List.foldr_cons]
    refine sortedInsert_pairwise _ ?_ x (sortDesc xs) ?_ ?_ ?_
    · rintro a b (h | ⟨h, _⟩)
      · exact Nat.le_of_lt h
      · exact Nat.le_of_eq h.symm
    · refine (ih.imp ?_)
      rintro a b (h | ⟨h1, h2⟩)
      · exact Or.inl h
      · exact Or.inr ⟨h1, h2.cons x⟩
    · intro z hz hle
      have hzmem : z ∈ xs := (sortDesc_perm xs).subset hz
      rcases Nat.lt_or_ge z.2 x.2 with hlt | hge
      · exact Or.inl hlt
      · refine Or.inr ⟨Nat.le_antisymm hge hle, ?_⟩
        exact (List.singleton_sublist.mpr hzmem).cons₂ x
    · intro z hz hlt
      exact Or.inl hlt

theorem find_hub_genes_eq (G : Graph α) (top_n : ℕ) :
    find_hub_genes G top_n =
      ((sortDesc (degree_items G)).take top_n).map Prod.fst := by
  rw [find_hub_genes]
  by_cases h : G.number_of_nodes = 0
  · rw [if_pos h]
    have hnil : G.nodes = [] := List.length_eq_zero.mp h
    rw [degree_items, hnil]
    simp [sortDesc]
  · rw [if_neg h]

theorem degree_items_map_fst (G : Graph α) :
    (degree_items G).map Prod.fst = G.nodes := by
  rw [degree_items, List.map_map]
  exact List.map_id _

/-! ### Layout congruence and edge reversal -/

theorem dispOne_congr {w1 w2 : α → α → ℚ}
    (h : ∀ u v, w1 u v + w1 v u = w2 u v + w2 v u) (k : ℚ)
    (pos : List (α × (ℚ × ℚ))) (u : α) (pu : ℚ × ℚ) :
    dispOne k w1 pos u pu = dispOne k w2 pos u pu := by
  rw [dispOne, dispOne]
  congr 1
  funext acc q
  by_cases hq : q.1 = u
  · rw [if_pos hq, if_pos hq]
  · rw [if_neg hq, if_neg hq]
    simp only
    rw [h u q.1]

theorem stepPos_congr {w1 w2 : α → α → ℚ}
    (h : ∀ u v, w1 u v + w1 v u = w2 u v + w2 v u) (k t : ℚ)
    (pos : List (α × (ℚ × ℚ))) :
    stepPos k w1 t pos = stepPos k w2 t pos := by
  rw [stepPos, stepPos]
  congr 1
  funext p
  rw [dispOne_congr h]

theorem layoutIter_congr {w1 w2 : α → α → ℚ}
    (h : ∀ u v, w1 u v + w1 v u = w2 u v + w2 v u) (k : ℚ)
    (pos : List (α × (ℚ × ℚ))) (iters : ℕ) :
    layoutIter k w1 pos iters = layoutIter k w2 pos iters := by
  induction iters with
  | zero => rfl
  | succ n ih => rw [layoutIter, layoutIter, ih, stepPos_congr h]

theorem layoutAux_congr {w1 w2 : α → α → ℚ}
    (h : ∀ u v, w1 u v + w1 v u = w2 u v + w2 v u) (nodes : List α)
    (seed : ℕ) (k : ℚ) (iters : ℕ) :
    layoutAux nodes w1 seed k iters = layoutAux nodes w2 seed k iters := by
  rw [layoutAux, layoutAux, layoutIter_congr h]

theorem reverseEdge_adj (G : Graph α) (a b : α) (wt : ℚ) :
    (reverseEdge G a b wt).adj =
      (G.adj.map (fun p => if p.1 = a then (p.1, delSucc p.2 b) else p)).map
        (fun p => if p.1 = b then (p.1, setSucc p.2 a wt) else p) := rfl

theorem alookup_reverseEdge (G : Graph α) (a b : α) (wt : ℚ) (x : α) :
    alookup (reverseEdge G a b wt).adj x =
      (alookup G.adj x).map (fun s =>
        if x = b then setSucc (if x = a then delSucc s b else s) a wt
        else (if x = a then delSucc s b else s)) := by
  have hdel : ∀ p : α × List (α × ℚ),
      ((fun p => if p.1 = a then (p.1, delSucc p.2 b) else p) p).1 = p.1 := by
    intro p; by_cases hp : p.1 = a <;> simp [hp]
  have hset : ∀ p : α × List (α × ℚ),
      ((fun p => if p.1 = b then (p.1, setSucc p.2 a wt) else p) p).1 = p.1 := by
    intro p; by_cases hp : p.1 = b <;> simp [hp]
  rw [reverseEdge_adj, alookup_map_keyfix _ hset, alookup_map_keyfix _ hdel]
  cases alookup G.adj x with
  | none => rfl
  | some s =>
    simp only [Option.map_some']
    congr 1
    by_cases hxa : x = a <;> by_cases hxb : x = b <;>
      simp [hxa, hxb, apply_ite Prod.snd]

theorem lookupW_reverseEdge_ab {G : Graph α} {a b : α} (wt : ℚ)
    (hab : a ≠ b) : lookupW (reverseEdge G a b wt) a b = none := by
  rw [lookupW_eq_bind, alookup_reverseEdge]
  cases alookup G.adj a with
  | none => rfl
  | some s =>
    simp only [Option.map_some', Option.some_bind]
    simp [hab, alookup_delSucc_self]

theorem lookupW_reverseEdge_ba {G : Graph α} {a b : α} (wt : ℚ)
    (hab : a ≠ b) {s : List (α × ℚ)} (hs : alookup G.adj b = some s) :
    lookupW (reverseEdge G a b wt) b a = some wt := by
  rw [lookupW_eq_bind, alookup_reverseEdge, hs]
  simp only [Option.map_some', Option.some_bind]
  have hba : ¬b = a := fun h => hab h.symm
  simp [hba, alookup_setSucc_self]

theorem lookupW_reverseEdge_other {G : Graph α} {a b : α} (wt : ℚ)
    {x y : α} (h1 : ¬(x = a ∧ y = b)) (h2 : ¬(x = b ∧ y = a)) :
    lookupW (reverseEdge G a b wt) x y = lookupW G x y := by
  rw [lookupW_eq_bind, lookupW_eq_bind, alookup_reverseEdge]
  cases alookup G.adj x with
  | none => rfl
  | some s =>
    simp only [Option.map_some', Option.some_bind]
    by_cases hxb : x = b
    · rw [if_pos hxb]
      have hya : y ≠ a := fun hy => h2 ⟨hxb, hy⟩
      rw [alookup_setSucc_ne _ _ _ hya]
      by_cases hxa : x = a
      · rw [if_pos hxa]
        have hyb : y ≠ b := fun hy => h1 ⟨hxa, hy⟩
        exact alookup_delSucc_ne s b hyb
      · rw [if_neg hxa]
    · rw [if_neg hxb]
      by_cases hxa : x = a
      · rw [if_pos hxa]
        have hyb : y ≠ b := fun hy => h1 ⟨hxa, hy⟩
        exact alookup_delSucc_ne s b hyb
      · rw [if_neg hxa]

theorem reverseEdge_symW {G : Graph α} {a b : α} {wt : ℚ} (hwf : G.WF)
    (hab : a ≠ b) (hfwd : lookupW G a b = some wt)
    (hbwd : lookupW G b a = none) (x y : α) :
    adjW (reverseEdge G a b wt) x y + adjW (reverseEdge G a b wt) y x =
      adjW G x y + adjW G y x := by
  have hbmem : (alookup G.adj b).isSome = true := by
    rw [lookupW_eq_bind] at hfwd
    cases hsa : alookup G.adj a with
    | none => rw [hsa] at hfwd; exact absurd hfwd (by simp)
    | some s =>
      rw [hsa, Option.some_bind] at hfwd
      have hmem : (b, wt) ∈ s := mem_of_alookup hfwd
      have hsmem : (a, s) ∈ G.adj := mem_of_alookup hsa
      have hb : b ∈ G.nodes := hwf.2.2.2 (a, s) hsmem (b, wt) hmem
      rw [alookup_isSome, hwf.1]
      exact hb
  obtain ⟨sb, hsb⟩ := Option.isSome_iff_exists.mp hbmem
  by_cases h1 : x = a ∧ y = b
  · obtain ⟨rfl, rfl⟩ := h1
    rw [adjW, adjW, adjW, adjW, lookupW_reverseEdge_ab wt hab,
      lookupW_reverseEdge_ba wt hab hsb, hfwd, hbwd]
    simp [Rat.add_comm]
  · by_cases h2 : x = b ∧ y = a
    · obtain ⟨rfl, rfl⟩ := h2
      rw [adjW, adjW, adjW, adjW, lookupW_reverseEdge_ab wt hab,
        lookupW_reverseEdge_ba wt hab hsb, hfwd, hbwd]
      simp [Rat.add_comm]
    · have h1' : ¬(y = a ∧ x = b) := fun h => h2 ⟨h.2, h.1⟩
      have h2' : ¬(y = b ∧ x = a) := fun h => h1 ⟨h.2, h.1⟩
      rw [adjW, adjW, lookupW_reverseEdge_other wt h1 h2,
        lookupW_reverseEdge_other wt h1' h2']
      rfl

/-! ### Claim theorems -/

/-- C1: for every graph and every `top_n ≥ 0`, `find_hub_genes(G, top_n)`
returns the nodes ordered by degree descending, ties between equal-degree
nodes broken by the graph's node-insertion (first-seen) order, truncated
to at most `top_n` entries; a graph with zero nodes yields an empty
ranking; and on the graph built from the triples
`[(A,B,0.9), (B,C,0.5), (A,C,0.3)]` with `top_n = 2` the ranking is
`[A, B]`. -/
theorem C1_hub_ranking_ordered (G : Graph α) (top_n : ℕ) :
    (find_hub_genes G top_n).length ≤ top_n ∧
    (G.nodes = [] → find_hub_genes G top_n = []) ∧
    (∃ full : List α, full.Perm G.nodes ∧
      find_hub_genes G top_n = full.take top_n ∧
      full.Pairwise (fun n m => G.degree m < G.degree n ∨
        (G.degree n = G.degree m ∧ [n, m].Sublist G.nodes))) ∧
    find_hub_genes exampleGraph 2 = [JVal.str "A", JVal.str "B"] := by
  refine ⟨?_, ?_, ?_, by decide⟩
  · rw [find_hub_genes_eq, List.length_map]
    exact List.length_take_le _ _
  · intro h
    simp [find_hub_genes, Graph.number_of_nodes, h]
  · refine ⟨(sortDesc (degree_items G)).map Prod.fst, ?_, ?_, ?_⟩
    · exact (degree_items_map_fst G) ▸ (sortDesc_perm (degree_items G)).map _
    · rw [find_hub_genes_eq, List.map_take]
    · rw [List.pairwise_map]
      refine (sortDesc_pairwise (degree_items G)).imp_of_mem ?_
      intro p q hp hq hpq
      have hp' : p ∈ degree_items G := (sortDesc_perm _).subset hp
      have hq' : q ∈ degree_items G := (sortDesc_perm _).subset hq
      have hpd : p.2 = G.degree p.1 := by
        rcases List.mem_map.mp hp' with ⟨n, _, rfl⟩
        rfl
      have hqd : q.2 = G.degree q.1 := by
        rcases List.mem_map.mp hq' with ⟨n, _, rfl⟩
        rfl
      rcases hpq with h | ⟨h1, h2⟩
      · exact Or.inl (hpd ▸ hqd ▸ h)
      · refine Or.inr ⟨hpd ▸ hqd ▸ h1, ?_⟩
        have := h2.map Prod.fst
        rw [degree_items_map_fst] at this
        exact this

/-- C2: re-applying an edge with an already-present ordered
`(source, target)` pair overwrites its weight (last-write-wins) and leaves
exactly one edge between those ordered endpoints; graphs built by
`build_network` never hold duplicate edges for the same ordered pair. -/
theorem C2_edge_overwrite :
    (∀ (input : NetInput) (G : Graph JVal), build_network input = .ok G →
      (edgeKeys G).Nodup) ∧
    (∀ {α : Type} [DecidableEq α], ∀ (G : Graph α) (u v : α) (w : ℚ),
      G.WF → (u, v) ∈ edgeKeys G →
      (edgeKeys (add_edge G u v w)).countP (fun e => decide (e = (u, v))) = 1 ∧
      lookupW (add_edge G u v w) u v = some w ∧
      (edgeKeys (add_edge G u v w)).Nodup) := by
  constructor
  · intro input G h
    exact edgeKeys_nodup (build_network_ok_WF h)
  · intro α _ G u v w hwf _
    have hwf' := add_edge_WF hwf u v w
    have hnd := edgeKeys_nodup hwf'
    have hlk := lookupW_add_edge_self hwf u v w
    have hmem : (u, v) ∈ edgeKeys (add_edge G u v w) :=
      (mem_edgeKeys_iff hwf').mpr (by rw [hlk]; rfl)
    exact ⟨countP_eq_one_of_nodup_mem hnd hmem, hlk, hnd⟩

/-- C2 witness: on a concrete graph holding the edge `A → B`, re-adding
`A → B` with a new weight keeps exactly one `A → B` edge carrying the new
weight; the result of a concrete `build_network` run has duplicate-free
edge keys. -/
theorem C2_edge_overwrite_witness :
    (edgeKeys (⟨[JVal.str "A", JVal.str "B"],
        [(JVal.str "A", [(JVal.str "B", 1)]), (JVal.str "B", [])]⟩ :
        Graph JVal)).Nodup ∧
    (edgeKeys (add_edge (add_edge Graph.empty "A" "B" 1) "A" "B"
        2)).countP (fun e => decide (e = ("A", "B"))) = 1 ∧
    lookupW (add_edge (add_edge Graph.empty "A" "B" 1) "A" "B" 2)
        "A" "B" = some 2 :=
  ⟨C2_edge_overwrite.1
      (.list [⟨.str "A", .str "B", .num 1⟩])
      ⟨[JVal.str "A", JVal.str "B"],
        [(JVal.str "A", [(JVal.str "B", 1)]), (JVal.str "B", [])]⟩ rfl,
   (C2_edge_overwrite.2 (add_edge Graph.empty "A" "B" 1) "A" "B" 2
      (by decide) (by decide)).1,
   (C2_edge_overwrite.2 (add_edge Graph.empty "A" "B" 1) "A" "B" 2
      (by decide) (by decide)).2.1⟩

/-- C3 counterexample: a record whose name fields are present but whose
score field holds a string not convertible to a floating-point number is
not silently discarded — `float(score)` raises and `build_network`
propagates the exception instead of returning a graph. -/
theorem C3_counterexample :
    build_network (.list [⟨.str "A", .str "B", .str "abc"⟩]) =
      .error () := rfl

/-- C3 (amended): a record whose source name, target name and score are
all present with the score convertible to float contributes its edge; a
record with a missing or falsy name field or a missing score is silently
discarded and never raises; but a record whose score field is present and
not convertible to a floating-point number makes `build_network` raise. -/
theorem C3_parser_behaviour :
    (∀ (G : Graph JVal) (r : Interaction) (w : ℚ),
      truthy r.preferredName_A = true → truthy r.preferredName_B = true →
      r.score ≠ JVal.null → pyFloat? r.score = some w →
      applyRecord G r =
        .ok (add_edge G r.preferredName_A r.preferredName_B w)) ∧
    (∀ (G : Graph JVal) (r : Interaction),
      ¬(truthy r.preferredName_A = true ∧ truthy r.preferredName_B = true ∧
        r.score ≠ JVal.null) → applyRecord G r = .ok G) ∧
    (∀ (G : Graph JVal) (r : Interaction),
      truthy r.preferredName_A = true → truthy r.preferredName_B = true →
      r.score ≠ JVal.null → pyFloat? r.score = none →
      applyRecord G r = .error ()) := by
  have hguard : ∀ r : Interaction,
      (truthy r.preferredName_A && truthy r.preferredName_B
        && !(r.score == JVal.null)) = true ↔
      (truthy r.preferredName_A = true ∧ truthy r.preferredName_B = true ∧
        r.score ≠ JVal.null) := by
    intro r
    simp [Bool.and_assoc]
  refine ⟨?_, ?_, ?_⟩
  · intro G r w h1 h2 h3 hw
    rw [applyRecord, if_pos ((hguard r).mpr ⟨h1, h2, h3⟩), hw]
  · intro G r h
    rw [applyRecord, if_neg (fun hc => h ((hguard r).mp hc))]
  · intro G r h1 h2 h3 hw
    rw [applyRecord, if_pos ((hguard r).mpr ⟨h1, h2, h3⟩), hw]

/-- C3 witness: a convertible score produces the edge; a present but
non-convertible score raises, both on concrete records. -/
theorem C3_parser_behaviour_witness :
    applyRecord Graph.empty ⟨.str "A", .str "B", .num 1⟩ =
        .ok (add_edge Graph.empty (.str "A") (.str "B") 1) ∧
    applyRecord Graph.empty ⟨.str "A", .str "B", .str "abc"⟩ =
        .error () :=
  ⟨C3_parser_behaviour.1 Graph.empty ⟨.str "A", .str "B", .num 1⟩ 1
      (by decide) (by decide) (by decide) rfl,
   C3_parser_behaviour.2.2 Graph.empty ⟨.str "A", .str "B", .str "abc"⟩
      (by decide) (by decide) (by decide) rfl⟩

/-- C4: the degree used by the hub ranking counts the stored edges
touching the node in both directions — the number of edges with the node
as source plus the number with the node as target. -/
theorem C4_degree_counts_both_directions (G : Graph α) (n : α)
    (hwf : G.WF) :
    G.degree n = (G.edges.countP (fun e => decide (e.1 = n))) +
      (G.edges.countP (fun e => decide (e.2.1 = n))) := by
  obtain ⟨hkeys, hnd, _, _⟩ := hwf
  have hndk : (G.adj.map Prod.fst).Nodup := hkeys ▸ hnd
  rw [Graph.degree, Graph.in_degree, Graph.out_degree, Graph.edges,
    countP_src_edgesAux hndk, countP_tgt_edgesAux, Nat.add_comm]

/-- C4 witness: on the worked-example graph, the degree of node `A`
equals its source-occurrence count plus its target-occurrence count. -/
theorem C4_degree_counts_both_directions_witness :
    (exampleGraph.degree (JVal.str "A") =
      (exampleGraph.edges.countP (fun e => decide (e.1 = JVal.str "A"))) +
      (exampleGraph.edges.countP
        (fun e => decide (e.2.1 = JVal.str "A")))) :=
  C4_degree_counts_both_directions exampleGraph (JVal.str "A") (by decide)

/-- C5: the layout is insensitive to edge direction — replacing a stored
edge `(a, b)` by the reversed edge `(b, a)` with the same weight yields
the same coordinates for every node, for every seed, spacing parameter
and iteration count. -/
theorem C5_layout_direction_insensitive (G : Graph α) (a b : α) (wt : ℚ)
    (seed : ℕ) (k : ℚ) (iterations : ℕ) (hwf : G.WF) (hab : a ≠ b)
    (hfwd : lookupW G a b = some wt) (hbwd : lookupW G b a = none) :
    spring_layout (reverseEdge G a b wt) seed k iterations =
      spring_layout G seed k iterations := by
  rw [spring_layout, spring_layout]
  have hnodes : (reverseEdge G a b wt).nodes = G.nodes := rfl
  rw [hnodes]
  exact layoutAux_congr (reverseEdge_symW hwf hab hfwd hbwd) G.nodes seed
    k iterations

/-- C5 witness: reversing the single stored edge of a concrete two-node
graph leaves the layout unchanged. -/
theorem C5_layout_direction_insensitive_witness :
    spring_layout (reverseEdge (add_edge Graph.empty "A" "B" 1) "A" "B" 1)
        0 1 1 =
      spring_layout (add_edge Graph.empty "A" "B" 1) 0 1 1 :=
  C5_layout_direction_insensitive (add_edge Graph.empty "A" "B" 1) "A" "B"
    1 0 1 1 (by decide) (by decide) (by decide) (by decide)

/-- C6: hub ranking is deterministic — two invocations of
`find_hub_genes` on an identical graph (same nodes, edges and
construction order) with the same `top_n` produce identical ordered
output. -/
theorem C6_ranking_deterministic (G1 G2 : Graph α) (n1 n2 : ℕ)
    (hG : G1 = G2) (hn : n1 = n2) :
    find_hub_genes G1 n1 = find_hub_genes G2 n2 := by
  rw [hG, hn]

/-- C6 witness: two invocations on the worked-example graph agree. -/
theorem C6_ranking_deterministic_witness :
    find_hub_genes exampleGraph 5 = find_hub_genes exampleGraph 5 :=
  C6_ranking_deterministic exampleGraph exampleGraph 5 5 rfl rfl

/-- C7: layout generation is deterministic and reproducible — two runs on
identical graph topology with the same seed, iteration count and spacing
parameter produce exactly matching coordinates for every node. -/
theorem C7_layout_deterministic (G1 G2 : Graph α) (s1 s2 : ℕ)
    (k1 k2 : ℚ) (i1 i2 : ℕ) (hG : G1 = G2) (hs : s1 = s2) (hk : k1 = k2)
    (hi : i1 = i2) :
    spring_layout G1 s1 k1 i1 = spring_layout G2 s2 k2 i2 := by
  rw [hG, hs, hk, hi]

/-- C7 witness: two runs on a concrete two-node graph with the seed,
spacing and iteration count fixed agree. -/
theorem C7_layout_deterministic_witness :
    spring_layout (add_edge Graph.empty "A" "B" 1) 42 (1 / 2) 3 =
      spring_layout (add_edge Graph.empty "A" "B" 1) 42 (1 / 2) 3 :=
  C7_layout_deterministic (add_edge Graph.empty "A" "B" 1)
    (add_edge Graph.empty "A" "B" 1) 42 42 (1 / 2) (1 / 2) 3 3
    rfl rfl rfl rfl

/-- C8: scene generation emits an edge segment only when both endpoints
of the edge have a resolved coordinate in the layout (so no segment ever
references a node absent from the layout), and a graph with zero nodes
produces a scene with zero node-glyphs and zero edge-segments. -/
theorem C8_scene_guard (G : Graph α) (hub_genes : List α) (hwf : G.WF) :
    (∀ seg ∈ (create_graph_figure G hub_genes).edgeSegs,
      ∃ e ∈ G.edges, alookup (layoutOf G) e.1 = some seg.1 ∧
        alookup (layoutOf G) e.2.1 = some seg.2) ∧
    (G.nodes = [] → create_graph_figure G hub_genes = ⟨[], []⟩) := by
  constructor
  · intro seg hseg
    rw [create_graph_figure_edgeSegs, sceneEdgeSegs] at hseg
    rcases List.mem_filterMap.mp hseg with ⟨e, he, hfe⟩
    refine ⟨e, he, ?_⟩
    cases h0 : alookup (layoutOf G) e.1 with
    | none => rw [h0] at hfe; exact absurd hfe (by simp)
    | some c0 =>
      cases h1 : alookup (layoutOf G) e.2.1 with
      | none => rw [h0, h1] at hfe; exact absurd hfe (by simp)
      | some c1 =>
        rw [h0, h1] at hfe
        cases seg with
        | mk s1 s2 =>
          simp only [Option.some.injEq, Prod.mk.injEq] at hfe
          obtain ⟨rfl, rfl⟩ := hfe
          exact ⟨rfl, rfl⟩
  · intro hnil
    have hadj : G.adj = [] := by
      cases hga : G.adj with
      | nil => rfl
      | cons p rest =>
        exfalso
        have hk := hwf.1
        rw [hga, hnil] at hk
        exact absurd hk (by simp)
    have h1 : sceneEdgeSegs G = [] := by
      rw [sceneEdgeSegs, Graph.edges, hadj]
      rfl
    have h2 : sceneGlyphs G hub_genes = [] := by
      rw [sceneGlyphs, hnil]
      rfl
    rw [create_graph_figure, h1, h2]

/-- C8 witness: the scene of the empty graph has no segments and no
glyphs. -/
theorem C8_scene_guard_witness :
    create_graph_figure (Graph.empty : Graph String) [] = ⟨[], []⟩ :=
  (C8_scene_guard Graph.empty [] (by decide)).2 rfl

/-- C9: the nodes of the built graph are exactly the distinct identifiers
appearing as source or target across the records that survive parsing (so
adding an edge creates any absent endpoint), and an empty or non-list
input yields the empty graph without error. -/
theorem C9_node_set (recs : List Interaction) (G : Graph JVal)
    (h : build_network (.list recs) = .ok G) :
    G.nodes.Nodup ∧
    (∀ v, v ∈ G.nodes ↔ ∃ r ∈ recs, survives r = true ∧
      (r.preferredName_A = v ∨ r.preferredName_B = v)) ∧
    G.nodes.length = (endpointsOf recs).dedup.length ∧
    (∀ (H : Graph JVal) (u v : JVal) (w : ℚ),
      u ∈ (add_edge H u v w).nodes ∧ v ∈ (add_edge H u v w).nodes) ∧
    build_network .notList = .ok Graph.empty ∧
    build_network (.list []) = .ok Graph.empty := by
  have hwf := build_network_ok_WF h
  have hmem : ∀ v, v ∈ G.nodes ↔ ∃ r ∈ recs, survives r = true ∧
      (r.preferredName_A = v ∨ r.preferredName_B = v) := by
    cases recs with
    | nil =>
      have h' : Graph.empty = G := by
        simpa [build_network] using h
      subst h'
      intro v
      simp [Graph.empty]
    | cons r rs =>
      rw [build_network] at h
      rw [if_neg (by simp)] at h
      intro v
      rw [applyRecords_mem_nodes h v]
      simp [Graph.empty]
  refine ⟨hwf.2.1, hmem, ?_, ?_, rfl, rfl⟩
  · have hd2 : (endpointsOf recs).dedup.Nodup := (endpointsOf recs).nodup_dedup
    have hiff : ∀ v, v ∈ G.nodes ↔ v ∈ (endpointsOf recs).dedup := by
      intro v
      rw [List.mem_dedup, mem_endpointsOf, hmem v]
    exact ((List.perm_ext_iff_of_nodup hwf.2.1 hd2).mpr hiff).length_eq
  · intro H u v w
    exact ⟨add_edge_nodes_mem.mpr (Or.inr (Or.inl rfl)),
           add_edge_nodes_mem.mpr (Or.inr (Or.inr rfl))⟩

/-- C9 witness: a concrete batch with one surviving record and one
malformed record yields a graph whose node count equals the number of
distinct surviving endpoints. -/
theorem C9_node_set_witness :
    (⟨[JVal.str "A", JVal.str "B"],
        [(JVal.str "A", [(JVal.str "B", 1)]), (JVal.str "B", [])]⟩ :
      Graph JVal).nodes.length =
    (endpointsOf [⟨.str "A", .str "B", .num 1⟩,
        ⟨.null, .str "C", .num 1⟩]).dedup.length :=
  (C9_node_set
      [⟨.str "A", .str "B", .num 1⟩, ⟨.null, .str "C", .num 1⟩]
      ⟨[JVal.str "A", JVal.str "B"],
        [(JVal.str "A", [(JVal.str "B", 1)]), (JVal.str "B", [])]⟩
      rfl).2.2.1

/-- C10: a record whose source-name or target-name field is falsy (the
empty string, `None`, `0`, ...) is dropped, so a falsy protein name never
becomes a node or an edge endpoint of a built graph, whereas a score
equal to `0` passes the `score is not None` check and produces an edge of
weight `0.0`. -/
theorem C10_falsy_names_zero_score :
    (∀ (G : Graph JVal) (r : Interaction),
      truthy r.preferredName_A = false ∨ truthy r.preferredName_B = false →
      applyRecord G r = .ok G) ∧
    (∀ (input : NetInput) (G : Graph JVal), build_network input = .ok G →
      (∀ v ∈ G.nodes, truthy v = true) ∧
      (∀ e ∈ G.edges, truthy e.1 = true ∧ truthy e.2.1 = true)) ∧
    (∀ (G : Graph JVal) (r : Interaction),
      truthy r.preferredName_A = true → truthy r.preferredName_B = true →
      r.score = JVal.num 0 →
      applyRecord G r =
        .ok (add_edge G r.preferredName_A r.preferredName_B 0)) := by
  refine ⟨?_, ?_, ?_⟩
  · intro G r hf
    refine applyRecord_discard ?_
    rcases hf with hf | hf <;> simp [hf]
  · intro input G h
    have hwf := build_network_ok_WF h
    have hnodes : ∀ v ∈ G.nodes, truthy v = true := by
      cases input with
      | notList =>
        simp only [build_network, Except.ok.injEq] at h
        subst h
        intro v hv
        simp [Graph.empty] at hv
      | list recs =>
        rw [build_network] at h
        by_cases he : recs.isEmpty
        · rw [if_pos he] at h
          simp only [Except.ok.injEq] at h
          subst h
          intro v hv
          simp [Graph.empty] at hv
        · rw [if_neg he] at h
          refine applyRecords_truthy_nodes ?_ h
          intro v hv
          simp [Graph.empty] at hv
    refine ⟨hnodes, ?_⟩
    intro e he
    rw [Graph.edges] at he
    rcases mem_edgesAux_iff.mp he with ⟨p, hp, q, hq, rfl⟩
    constructor
    · refine hnodes _ ?_
      rw [← hwf.1]
      exact List.mem_map_of_mem Prod.fst hp
    · exact hnodes _ (hwf.2.2.2 p hp q hq)
  · intro G r h1 h2 h3
    rw [applyRecord, if_pos (by simp [h1, h2, h3]), h3]
    rfl

/-- C10 witness: an empty-string source name is dropped and a zero score
is accepted with weight `0.0`, on concrete records. -/
theorem C10_falsy_names_zero_score_witness :
    applyRecord Graph.empty ⟨.str "", .str "B", .num 1⟩ =
        .ok Graph.empty ∧
    applyRecord Graph.empty ⟨.str "A", .str "B", .num 0⟩ =
        .ok (add_edge Graph.empty (.str "A") (.str "B") 0) :=
  ⟨C10_falsy_names_zero_score.1 Graph.empty ⟨.str "", .str "B", .num 1⟩
      (Or.inl (by decide)),
   C10_falsy_names_zero_score.2.2 Graph.empty ⟨.str "A", .str "B", .num 0⟩
      (by decide) (by decide) rfl⟩

end ProteinHub
